import Mathlib

/-!
# Verification of the pywolt throttling/retry transport layer

Shallow embedding of `src/pywolt/transport.py`: the sliding-window
`Throttler` (context-manager acquisition `__enter__`) and the retrying
`RateLimitedTransport.handle_request`.

Time is modelled by rationals under a monotone clock/sleep model:
`time.time()` returns the current clock value, `time.sleep(d)` (always
invoked with `d > 0` by the source) advances the clock by exactly `d`,
and between successive acquisitions the clock may drift forward by an
arbitrary non-negative amount.  A Python `IndexError` (popping an empty
deque) is modelled by `Option.none`; a transport-level exception raised
by the wrapped transport is modelled by `Except.error`.
-/

/-- The `Throttler` object of `transport.py`.  `history` is the deque of
recorded admission timestamps, oldest first (Python `popleft` removes the
head, `append` adds at the tail, `history[-1]` reads the tail). -/
structure Throttler where
  calls_per_second : ℤ
  min_interval : ℚ
  history : List ℚ
deriving DecidableEq

/-- `Throttler.__init__`: store the configuration, start with an empty
history deque. -/
def mkThrottler (calls_per_second : ℤ) (min_interval : ℚ) : Throttler :=
  ⟨calls_per_second, min_interval, []⟩

/-- The eviction loop of `Throttler.__enter__`:
`while len(self.history) >= self.calls_per_second:` pop the oldest
timestamp `last_time` and set `sleep_time = last_time + 1 - cur_time`.
`none` models the `IndexError` raised by `popleft` on an empty deque. -/
def evictLoop (k : ℤ) : List ℚ → ℚ → ℚ → Option (List ℚ × ℚ)
  | [], _, sleepT =>
    if (([] : List ℚ).length : ℤ) ≥ k then none else some ([], sleepT)
  | h :: rest, cur, sleepT =>
    if (((h :: rest).length : ℤ)) ≥ k then evictLoop k rest cur (h + 1 - cur)
    else some (h :: rest, sleepT)

/-- The minimum-spacing step of `Throttler.__enter__`: with `last =
self.history[-1]` and `delta = t - last`, if `min_interval > 0` and
`delta < min_interval` then `time.sleep(min_interval - delta)`; the
result is the clock value after this (possible) sleep. -/
def minIntervalWait (m last t : ℚ) : ℚ :=
  if m > 0 ∧ t - last < m then t + (m - (t - last)) else t

/-- The final sleep of `Throttler.__enter__`: `if sleep_time > 0:
time.sleep(sleep_time)`; the result is the clock value after it. -/
def afterSleep (t1 sleepT : ℚ) : ℚ :=
  if sleepT > 0 then t1 + sleepT else t1

/-- `Throttler.__enter__` at clock value `t`.  Returns the updated
throttler together with the clock value at exit (which is exactly the
timestamp appended to the history), or `none` for the `IndexError`
case. -/
def Throttler.enter (s : Throttler) (t : ℚ) : Option (Throttler × ℚ) :=
  if hne : s.history = [] then
    some ({ s with history := [t] }, t)
  else
    match evictLoop s.calls_per_second s.history
        (minIntervalWait s.min_interval (s.history.getLast hne) t) 0 with
    | none => none
    | some (hist1, sleepT) =>
      some ({ s with history := hist1 ++
                [afterSleep (minIntervalWait s.min_interval (s.history.getLast hne) t) sleepT] },
            afterSleep (minIntervalWait s.min_interval (s.history.getLast hne) t) sleepT)

/-- A sequence of acquisitions under the monotone clock model: each entry
of `gaps` is the (non-negative) clock drift before the corresponding call
to `__enter__`.  Returns the final throttler, the final clock value and
the list of admission timestamps in order, or `none` if some acquisition
raised. -/
def Throttler.run : Throttler → ℚ → List ℚ → Option (Throttler × ℚ × List ℚ)
  | s, t, [] => some (s, t, [])
  | s, t, d :: ds =>
    match s.enter (t + d) with
    | none => none
    | some (s1, tau) =>
      match Throttler.run s1 tau ds with
      | none => none
      | some (s2, t2, taus) => some (s2, t2, tau :: taus)

/-- The mutable state threaded through `RateLimitedTransport.handle_request`:
the throttler, the clock, the number of invocations of the wrapped
transport so far, and the number of `time.sleep(self.wait_time)` retry
sleeps performed so far. -/
structure RunState where
  thr : Throttler
  now : ℚ
  calls : ℕ
  retrySleeps : ℕ
deriving DecidableEq

/-- `RateLimitedTransport.handle_request`.  The wrapped
`httpx.HTTPTransport` is modelled by `send`, mapping the invocation index
to either a transport-level error (`Except.error`) or a response status
code (`Except.ok`); `httpx.codes.TOO_MANY_REQUESTS` is 429.  The outer
`none` models the throttler raising; `Throttler.__exit__` is a no-op, so
a transport error propagates with the history update kept. -/
def handleRequest {eps : Type} (send : ℕ → Except eps ℕ) (max_attempts : ℕ)
    (wait_time : ℚ) (st : RunState) (attempt : ℕ) :
    Option (RunState × Except eps ℕ) :=
  match st.thr.enter st.now with
  | none => none
  | some (thr1, tau) =>
    let st1 : RunState := ⟨thr1, tau, st.calls + 1, st.retrySleeps⟩
    match send st.calls with
    | .error e => some (st1, .error e)
    | .ok status =>
      if status = 429 ∧ attempt < max_attempts then
        handleRequest send max_attempts wait_time
          ⟨st1.thr, st1.now + wait_time, st1.calls, st1.retrySleeps + 1⟩
          (attempt + 1)
      else
        some (st1, .ok status)
termination_by max_attempts - attempt
decreasing_by
  rename_i hcond
  omega

/-! ## The run invariant

`Good K m s t taus` relates the throttler state `s` and the current
clock `t` to the full sequence `taus` of admission timestamps recorded
so far: the configuration is `(K, m)`, the history deque is the suffix
of the last `min (taus.length) K` admissions, the admissions are
non-decreasing, any two admissions `K` apart are at least one second
apart, consecutive admissions are at least `m` apart, and the clock is
at or past every admission. -/

def Good (K : ℕ) (m : ℚ) (s : Throttler) (t : ℚ) (taus : List ℚ) : Prop :=
  s.calls_per_second = (K : ℤ) ∧
  s.min_interval = m ∧
  s.history = taus.drop (taus.length - K) ∧
  taus.Pairwise (· ≤ ·) ∧
  (∀ i a b, taus[i]? = some a → taus[i + K]? = some b → a + 1 ≤ b) ∧
  (∀ i a b, taus[i]? = some a → taus[i + 1]? = some b → a + m ≤ b) ∧
  (∀ a ∈ taus, a ≤ t)

/-! ## Basic lemmas about the throttler -/

theorem le_minIntervalWait (m last t : ℚ) : t ≤ minIntervalWait m last t := by
  unfold minIntervalWait
  split
  · rename_i h
    linarith [h.2]
  · exact le_refl t

theorem add_le_minIntervalWait (m last t : ℚ) (h : last ≤ t) :
    last + m ≤ minIntervalWait m last t := by
  unfold minIntervalWait
  split
  · linarith
  · rename_i hc
    push_neg at hc
    by_cases hm : 0 < m
    · linarith [hc hm]
    · push_neg at hm
      linarith

theorem le_afterSleep (t1 sleepT : ℚ) : t1 ≤ afterSleep t1 sleepT := by
  unfold afterSleep
  split <;> linarith

theorem add_le_afterSleep (t1 sleepT : ℚ) : t1 + sleepT ≤ afterSleep t1 sleepT := by
  unfold afterSleep
  split
  · exact le_refl _
  · rename_i hc
    push_neg at hc
    linarith

theorem evictLoop_isSome (k : ℤ) (hk : 1 ≤ k) (hist : List ℚ) (cur sleepT : ℚ) :
    (evictLoop k hist cur sleepT).isSome := by
  induction hist generalizing sleepT with
  | nil =>
    rw [evictLoop, if_neg]
    · rfl
    · simp only [List.length_nil, Nat.cast_zero]
      omega
  | cons h rest ih =>
    rw [evictLoop]
    split
    · exact ih _
    · rfl

theorem evictLoop_of_lt (k : ℤ) (hist : List ℚ) (cur sleepT : ℚ)
    (hlen : (hist.length : ℤ) < k) :
    evictLoop k hist cur sleepT = some (hist, sleepT) := by
  cases hist with
  | nil =>
    rw [evictLoop, if_neg]
    omega
  | cons h rest =>
    rw [evictLoop, if_neg]
    omega

theorem evictLoop_of_eq (k : ℤ) (h : ℚ) (rest : List ℚ) (cur sleepT : ℚ)
    (hlen : (((h :: rest).length : ℤ)) = k) :
    evictLoop k (h :: rest) cur sleepT = some (rest, h + 1 - cur) := by
  rw [evictLoop, if_pos (le_of_eq hlen.symm)]
  apply evictLoop_of_lt
  simp only [List.length_cons] at hlen
  omega

theorem enter_of_nil (s : Throttler) (t : ℚ) (hne : s.history = []) :
    s.enter t = some ({ s with history := [t] }, t) := by
  unfold Throttler.enter
  rw [dif_pos hne]

theorem enter_of_evict (s : Throttler) (t : ℚ) (hne : s.history ≠ [])
    (hist1 : List ℚ) (sleepT : ℚ)
    (hev : evictLoop s.calls_per_second s.history
        (minIntervalWait s.min_interval (s.history.getLast hne) t) 0 =
        some (hist1, sleepT)) :
    s.enter t = some ({ s with history := hist1 ++
        [afterSleep (minIntervalWait s.min_interval (s.history.getLast hne) t) sleepT] },
        afterSleep (minIntervalWait s.min_interval (s.history.getLast hne) t) sleepT) := by
  unfold Throttler.enter
  rw [dif_neg hne, hev]

theorem enter_isSome (s : Throttler) (t : ℚ) (hk : 1 ≤ s.calls_per_second) :
    (s.enter t).isSome := by
  by_cases hne : s.history = []
  · rw [enter_of_nil s t hne]
    rfl
  · have hev := evictLoop_isSome s.calls_per_second hk s.history
      (minIntervalWait s.min_interval (s.history.getLast hne) t) 0
    obtain ⟨⟨hist1, sleepT⟩, hev1⟩ := Option.isSome_iff_exists.mp hev
    rw [enter_of_evict s t hne hist1 sleepT hev1]
    rfl

theorem enter_config (s s' : Throttler) (t tau : ℚ)
    (he : s.enter t = some (s', tau)) :
    s'.calls_per_second = s.calls_per_second ∧ s'.min_interval = s.min_interval := by
  by_cases hne : s.history = []
  · rw [enter_of_nil s t hne] at he
    injection he with he1
    injection he1 with he2 he3
    rw [← he2]
    exact ⟨rfl, rfl⟩
  · cases hev : evictLoop s.calls_per_second s.history
        (minIntervalWait s.min_interval (s.history.getLast hne) t) 0 with
    | none =>
      unfold Throttler.enter at he
      rw [dif_neg hne, hev] at he
      exact absurd he (by simp)
    | some p =>
      obtain ⟨hist1, sleepT⟩ := p
      rw [enter_of_evict s t hne hist1 sleepT hev] at he
      injection he with he1
      injection he1 with he2 he3
      rw [← he2]
      exact ⟨rfl, rfl⟩

theorem lt_length_of_getElem?_some {l : List ℚ} {i : ℕ} {a : ℚ}
    (h : l[i]? = some a) : i < l.length := by
  by_contra hc
  push_neg at hc
  rw [List.getElem?_eq_none hc] at h
  exact absurd h (by simp)

theorem getLast?_drop_of_ne_nil {l : List ℚ} {j : ℕ} (h : l.drop j ≠ []) :
    (l.drop j).getLast? = l.getLast? := by
  have hj : j < l.length := by
    by_contra hc
    push_neg at hc
    exact h (List.drop_eq_nil_iff.mpr hc)
  rw [List.getLast?_eq_getElem?, List.getLast?_eq_getElem?, List.getElem?_drop,
    List.length_drop]
  have harith : j + (l.length - j - 1) = l.length - 1 := by omega
  rw [harith]

theorem pairwise_concat (taus : List ℚ) (tau : ℚ)
    (hs : taus.Pairwise (· ≤ ·)) (h : ∀ a ∈ taus, a ≤ tau) :
    (taus ++ [tau]).Pairwise (· ≤ ·) := by
  rw [List.pairwise_append]
  refine ⟨hs, List.pairwise_singleton _ _, ?_⟩
  intro a ha b hb
  rw [List.mem_singleton] at hb
  subst hb
  exact h a ha

theorem spacing_concat (taus : List ℚ) (tau c : ℚ) (K : ℕ) (hK : 1 ≤ K)
    (hsp : ∀ i a b, taus[i]? = some a → taus[i + K]? = some b → a + c ≤ b)
    (hnew : ∀ i a, i + K = taus.length → taus[i]? = some a → a + c ≤ tau) :
    ∀ i a b, (taus ++ [tau])[i]? = some a → (taus ++ [tau])[i + K]? = some b →
      a + c ≤ b := by
  intro i a b ha hb
  have hlen : i + K < (taus ++ [tau]).length := lt_length_of_getElem?_some hb
  rw [List.length_append, List.length_singleton] at hlen
  by_cases hiK : i + K < taus.length
  · have hi : i < taus.length := lt_of_le_of_lt (Nat.le_add_right i K) hiK
    rw [List.getElem?_append_left hi] at ha
    rw [List.getElem?_append_left hiK] at hb
    exact hsp i a b ha hb
  · have hiK2 : i + K = taus.length := by omega
    have hi : i < taus.length := by omega
    rw [List.getElem?_append_left hi] at ha
    have hnewb : (taus ++ [tau])[i + K]? = some tau := by
      rw [hiK2]
      exact List.getElem?_concat_length taus tau
    rw [hnewb] at hb
    injection hb with hb1
    subst hb1
    exact hnew i a hiK2 ha

theorem afterSleep_zero (t1 : ℚ) : afterSleep t1 0 = t1 := by
  unfold afterSleep
  rw [if_neg]
  norm_num

theorem evictLoop_of_full (k : ℤ) (hist : List ℚ) (hne : hist ≠ []) (cur sleepT : ℚ)
    (hlen : (hist.length : ℤ) = k) :
    evictLoop k hist cur sleepT = some (hist.tail, hist.head hne + 1 - cur) := by
  cases hist with
  | nil => exact absurd rfl hne
  | cons h rest => exact evictLoop_of_eq k h rest cur sleepT hlen

theorem Good.step {K : ℕ} {m : ℚ} {s : Throttler} {t : ℚ} {taus : List ℚ}
    (hg : Good K m s t taus) (hK : 1 ≤ K) {d : ℚ} (hd : 0 ≤ d)
    {s' : Throttler} {tau : ℚ} (he : s.enter (t + d) = some (s', tau)) :
    Good K m s' tau (taus ++ [tau]) := by
  obtain ⟨hk, hm, hh, hsort, hspK, hsp1, htime⟩ := hg
  by_cases hne : s.history = []
  · -- first recorded call: the history was empty
    have htaus : taus = [] := by
      rw [hne] at hh
      have h2 := List.drop_eq_nil_iff.mp hh.symm
      have h3 : taus.length = 0 := by omega
      exact List.length_eq_zero.mp h3
    subst htaus
    rw [enter_of_nil s (t + d) hne] at he
    injection he with he1
    injection he1 with he2 he3
    subst he3
    subst he2
    refine ⟨hk, hm, ?_, ?_, ?_, ?_, ?_⟩
    · simp only [List.nil_append, List.length_singleton]
      have h0 : 1 - K = 0 := by omega
      rw [h0, List.drop_zero]
    · simp
    · intro i a b _ hb
      have hlt := lt_length_of_getElem?_some hb
      simp only [List.nil_append, List.length_singleton] at hlt
      omega
    · intro i a b _ hb
      have hlt := lt_length_of_getElem?_some hb
      simp only [List.nil_append, List.length_singleton] at hlt
      omega
    · intro a ha
      simp only [List.nil_append, List.mem_singleton] at ha
      subst ha
      exact le_refl _
  · -- the history was non-empty
    have hdropne : taus.drop (taus.length - K) ≠ [] := hh ▸ hne
    have hlast? : taus[taus.length - 1]? = some (s.history.getLast hne) := by
      have h1 : s.history.getLast? = some (s.history.getLast hne) :=
        List.getLast?_eq_getLast s.history hne
      rw [List.getLast?_eq_getElem?] at h1
      have h2 : s.history[s.history.length - 1]? =
          (taus.drop (taus.length - K))[(taus.drop (taus.length - K)).length - 1]? := by
        rw [hh]
      rw [h2] at h1
      rw [← List.getLast?_eq_getElem?, getLast?_drop_of_ne_nil hdropne,
        List.getLast?_eq_getElem?] at h1
      exact h1
    have hlast_le : s.history.getLast hne ≤ t := htime _ (List.getElem?_mem hlast?)
    have f1 : t + d ≤ minIntervalWait s.min_interval (s.history.getLast hne) (t + d) :=
      le_minIntervalWait _ _ _
    have f2 : s.history.getLast hne + s.min_interval ≤
        minIntervalWait s.min_interval (s.history.getLast hne) (t + d) :=
      add_le_minIntervalWait _ _ _ (by linarith)
    have hlenh : s.history.length = taus.length - (taus.length - K) := by
      rw [hh, List.length_drop]
    by_cases hcap : taus.length < K
    · -- below capacity: no eviction
      have hlen2 : (s.history.length : ℤ) < s.calls_per_second := by
        rw [hk]
        omega
      have hev := evictLoop_of_lt s.calls_per_second s.history
        (minIntervalWait s.min_interval (s.history.getLast hne) (t + d)) 0 hlen2
      rw [enter_of_evict s (t + d) hne s.history 0 hev] at he
      injection he with he1
      injection he1 with he2 he3
      have htauW : tau = minIntervalWait s.min_interval (s.history.getLast hne) (t + d) := by
        rw [← he3, afterSleep_zero]
      have hs'h : s'.history = s.history ++ [tau] := by
        rw [← he2, afterSleep_zero, htauW]
      have hs'k : s'.calls_per_second = s.calls_per_second := by
        rw [← he2]
      have hs'm : s'.min_interval = s.min_interval := by
        rw [← he2]
      have htau1 : t + d ≤ tau := by rw [htauW]; exact f1
      have htau2 : s.history.getLast hne + s.min_interval ≤ tau := by
        rw [htauW]; exact f2
      refine ⟨by rw [hs'k]; exact hk, by rw [hs'm]; exact hm, ?_, ?_, ?_, ?_, ?_⟩
      · rw [hs'h, hh, List.length_append, List.length_singleton]
        have e1 : taus.length - K = 0 := by omega
        have e2 : taus.length + 1 - K = 0 := by omega
        rw [e1, e2, List.drop_zero, List.drop_zero]
      · refine pairwise_concat taus tau hsort ?_
        intro a ha
        have := htime a ha
        linarith
      · refine spacing_concat taus tau 1 K hK hspK ?_
        intro i a hiK _
        omega
      · refine spacing_concat taus tau m 1 (le_refl 1) hsp1 ?_
        intro i a hi1 ha
        have hieq : i = taus.length - 1 := by omega
        rw [hieq, hlast?] at ha
        injection ha with ha1
        rw [← ha1, ← hm]
        exact htau2
      · intro a ha
        rcases List.mem_append.mp ha with hin | hin
        · have := htime a hin
          linarith
        · rw [List.mem_singleton] at hin
          subst hin
          exact le_refl _
    · -- at capacity: exactly one eviction
      have hlen3 : (s.history.length : ℤ) = s.calls_per_second := by
        rw [hk]
        omega
      have hev := evictLoop_of_full s.calls_per_second s.history hne
        (minIntervalWait s.min_interval (s.history.getLast hne) (t + d)) 0 hlen3
      rw [enter_of_evict s (t + d) hne s.history.tail
        (s.history.head hne + 1 -
          minIntervalWait s.min_interval (s.history.getLast hne) (t + d)) hev] at he
      injection he with he1
      injection he1 with he2 he3
      have hs'h : s'.history = s.history.tail ++ [tau] := by
        rw [← he2, he3]
      have hs'k : s'.calls_per_second = s.calls_per_second := by
        rw [← he2]
      have hs'm : s'.min_interval = s.min_interval := by
        rw [← he2]
      have g1 : minIntervalWait s.min_interval (s.history.getLast hne) (t + d) ≤ tau := by
        rw [← he3]
        exact le_afterSleep _ _
      have g2 : s.history.head hne + 1 ≤ tau := by
        rw [← he3]
        have := add_le_afterSleep
          (minIntervalWait s.min_interval (s.history.getLast hne) (t + d))
          (s.history.head hne + 1 -
            minIntervalWait s.min_interval (s.history.getLast hne) (t + d))
        linarith
      have htau1 : t + d ≤ tau := le_trans f1 g1
      have htau2 : s.history.getLast hne + s.min_interval ≤ tau := le_trans f2 g1
      have hh0 : taus[taus.length - K]? = some (s.history.head hne) := by
        have h1 : s.history.head? = some (s.history.head hne) := List.head?_eq_head hne
        have h2 : s.history.head? = (taus.drop (taus.length - K)).head? := by
          rw [hh]
        rw [h2, List.head?_drop] at h1
        exact h1
      refine ⟨by rw [hs'k]; exact hk, by rw [hs'm]; exact hm, ?_, ?_, ?_, ?_, ?_⟩
      · rw [hs'h, hh, List.tail_drop, List.length_append, List.length_singleton]
        have e3 : taus.length - K + 1 = taus.length + 1 - K := by omega
        rw [e3, List.drop_append_of_le_length (by omega : taus.length + 1 - K ≤ taus.length)]
      · refine pairwise_concat taus tau hsort ?_
        intro a ha
        have := htime a ha
        linarith
      · refine spacing_concat taus tau 1 K hK hspK ?_
        intro i a hiK ha
        have hieq : i = taus.length - K := by omega
        rw [hieq, hh0] at ha
        injection ha with ha1
        rw [← ha1]
        exact g2
      · refine spacing_concat taus tau m 1 (le_refl 1) hsp1 ?_
        intro i a hi1 ha
        have hieq : i = taus.length - 1 := by omega
        rw [hieq, hlast?] at ha
        injection ha with ha1
        rw [← ha1, ← hm]
        exact htau2
      · intro a ha
        rcases List.mem_append.mp ha with hin | hin
        · have := htime a hin
          linarith
        · rw [List.mem_singleton] at hin
          subst hin
          exact le_refl _

theorem Good.base (K : ℕ) (m : ℚ) (k : ℤ) (hkK : k = (K : ℤ)) (t : ℚ) :
    Good K m (mkThrottler k m) t [] := by
  refine ⟨hkK, rfl, by simp [mkThrottler], List.Pairwise.nil, ?_, ?_, ?_⟩
  · intro i a b ha _
    have := lt_length_of_getElem?_some ha
    simp at this
  · intro i a b ha _
    have := lt_length_of_getElem?_some ha
    simp at this
  · intro a ha
    simp at ha

theorem Good.runStep {K : ℕ} {m : ℚ} (hK : 1 ≤ K) :
    ∀ (ds : List ℚ) (s : Throttler) (t : ℚ) (taus : List ℚ),
      Good K m s t taus → (∀ d ∈ ds, 0 ≤ d) →
      ∀ (s' : Throttler) (t' : ℚ) (taus' : List ℚ),
        Throttler.run s t ds = some (s', t', taus') →
        Good K m s' t' (taus ++ taus') := by
  intro ds
  induction ds with
  | nil =>
    intro s t taus hg _ s' t' taus' hr
    rw [Throttler.run] at hr
    injection hr with h1
    injection h1 with h2 h3
    injection h3 with h4 h5
    subst h2
    subst h4
    subst h5
    simpa using hg
  | cons d ds ih =>
    intro s t taus hg hd s' t' taus' hr
    rw [Throttler.run] at hr
    cases he : s.enter (t + d) with
    | none =>
      rw [he] at hr
      simp at hr
    | some p =>
      obtain ⟨s1, tau1⟩ := p
      rw [he] at hr
      have hg1 := Good.step hg hK (hd d (by simp)) he
      cases hrun : Throttler.run s1 tau1 ds with
      | none =>
        simp only [hrun] at hr
        exact Option.noConfusion hr
      | some q =>
        obtain ⟨s2, t2, taus2⟩ := q
        simp only [hrun, Option.some.injEq, Prod.mk.injEq] at hr
        obtain ⟨hr1, hr2, hr3⟩ := hr
        subst hr1
        subst hr2
        subst hr3
        have hgr := ih s1 tau1 (taus ++ [tau1]) hg1
          (fun x hx => hd x (by simp [hx])) s2 t2 taus2 hrun
        rw [List.append_assoc] at hgr
        simpa using hgr

theorem run_good {k : ℤ} {m t : ℚ} {ds : List ℚ} (hk : 1 ≤ k)
    (hd : ∀ d ∈ ds, 0 ≤ d) {s' : Throttler} {t' : ℚ} {taus : List ℚ}
    (hr : Throttler.run (mkThrottler k m) t ds = some (s', t', taus)) :
    Good k.toNat m s' t' taus := by
  have hK : 1 ≤ k.toNat := by omega
  have h0 : Good k.toNat m (mkThrottler k m) t [] :=
    Good.base k.toNat m k (by omega) t
  have hgr := Good.runStep hK ds (mkThrottler k m) t [] h0 hd s' t' taus hr
  simpa using hgr

/-! ## Window counting -/

theorem sorted_head_le (x : ℚ) (xs : List ℚ)
    (hsort : (x :: xs).Pairwise (· ≤ ·)) (j : ℕ) (hj : j < (x :: xs).length) :
    x ≤ (x :: xs).get ⟨j, hj⟩ := by
  cases j with
  | zero => exact le_refl x
  | succ j =>
    have hmem : (x :: xs).get ⟨j + 1, hj⟩ ∈ xs := by
      rw [List.get_cons_succ]
      exact List.get_mem xs _ _
    exact (List.pairwise_cons.mp hsort).1 _ hmem

theorem window_count (w : ℚ) (K : ℕ) :
    ∀ (l : List ℚ), l.Pairwise (· ≤ ·) →
      (∀ i a b, l[i]? = some a → l[i + K]? = some b → a + 1 ≤ b) →
      l.countP (fun x => decide (w < x ∧ x ≤ w + 1)) ≤ K := by
  intro l
  induction l with
  | nil =>
    intro _ _
    simp [List.countP_nil]
  | cons x xs ih =>
    intro hsort hsp
    by_cases hx : w < x
    · -- every element is above the window start; elements at index ≥ K are
      -- past the window end, so only the first K indices can contribute
      have hdecomp : (x :: xs).countP (fun y => decide (w < y ∧ y ≤ w + 1)) =
          ((x :: xs).take K).countP (fun y => decide (w < y ∧ y ≤ w + 1)) +
          ((x :: xs).drop K).countP (fun y => decide (w < y ∧ y ≤ w + 1)) := by
        conv_lhs => rw [← List.take_append_drop K (x :: xs)]
        rw [List.countP_append]
      have hkept : ((x :: xs).take K).countP (fun y => decide (w < y ∧ y ≤ w + 1)) ≤ K := by
        calc ((x :: xs).take K).countP (fun y => decide (w < y ∧ y ≤ w + 1)) ≤
            ((x :: xs).take K).length := List.countP_le_length _
          _ ≤ K := by rw [List.length_take]; omega
      have hdropped : ((x :: xs).drop K).countP (fun y => decide (w < y ∧ y ≤ w + 1)) = 0 := by
        rw [List.countP_eq_zero]
        intro a ha
        obtain ⟨j, hj⟩ := List.mem_iff_getElem?.mp ha
        rw [List.getElem?_drop] at hj
        have hjlt : K + j < (x :: xs).length := lt_length_of_getElem?_some hj
        have hjlt2 : j < (x :: xs).length := by omega
        have hc : (x :: xs)[j]? = some ((x :: xs).get ⟨j, hjlt2⟩) := by
          rw [List.getElem?_eq_getElem hjlt2]
          rfl
        have hspc := hsp j _ a hc (by
          have harith : j + K = K + j := by omega
          rw [harith]
          exact hj)
        have hxc := sorted_head_le x xs hsort j hjlt2
        simp only [decide_eq_true_eq, not_and, not_le]
        intro _
        linarith
      omega
    · have hPx : ¬((fun y => decide (w < y ∧ y ≤ w + 1)) x = true) := by
        simp [hx]
      rw [List.countP_cons_of_neg _ xs hPx]
      refine ih hsort.of_cons ?_
      intro i a b ha hb
      refine hsp (i + 1) a b ?_ ?_
      · rw [List.getElem?_cons_succ]
        exact ha
      · have harith : i + 1 + K = i + K + 1 := by omega
        rw [harith, List.getElem?_cons_succ]
        exact hb

theorem run_isSome : ∀ (ds : List ℚ) (s : Throttler) (t : ℚ),
    1 ≤ s.calls_per_second → (Throttler.run s t ds).isSome := by
  intro ds
  induction ds with
  | nil =>
    intro s t _
    rw [Throttler.run]
    rfl
  | cons d ds ih =>
    intro s t hk
    rw [Throttler.run]
    obtain ⟨⟨s1, tau⟩, he⟩ := Option.isSome_iff_exists.mp (enter_isSome s (t + d) hk)
    have hk1 : 1 ≤ s1.calls_per_second := by
      rw [(enter_config s s1 (t + d) tau he).1]
      exact hk
    obtain ⟨⟨s2, t2, taus⟩, hrun⟩ := Option.isSome_iff_exists.mp (ih s1 tau hk1)
    simp only [he]
    simp only [hrun]
    rfl

/-! ## Claims about the throttler -/

/-- C1: for every throttle configured with `maxCallsPerSecond = k ≥ 1` and
every sequence of completed acquisitions under the monotone clock/sleep
model, any trailing one-second window `(w, w+1]` of real time contains at
most `k` recorded admission timestamps. -/
theorem throttle_window_bound (k : ℤ) (m t0 : ℚ) (ds : List ℚ)
    (s' : Throttler) (tf : ℚ) (taus : List ℚ) (w : ℚ)
    (hk : 1 ≤ k) (hd : ∀ d ∈ ds, 0 ≤ d)
    (hr : Throttler.run (mkThrottler k m) t0 ds = some (s', tf, taus)) :
    ((taus.countP fun x => decide (w < x ∧ x ≤ w + 1)) : ℤ) ≤ k := by
  obtain ⟨_, _, _, hsort, hspK, _, _⟩ := run_good hk hd hr
  have hcount := window_count w k.toNat taus hsort hspK
  omega

theorem throttle_window_bound_witness :
    ((([(0:ℚ), 0, 1].countP fun x => decide ((0:ℚ) < x ∧ x ≤ 0 + 1)) : ℤ)) ≤ 2 :=
  throttle_window_bound 2 0 0 [0, 0, 0] ⟨2, 0, [0, 1]⟩ 1 [0, 0, 1] 0 (by norm_num)
    (by decide)
    (by norm_num [Throttler.run, Throttler.enter, evictLoop, mkThrottler,
          minIntervalWait, afterSleep, List.getLast]
        all_goals decide)

/-- C5: for every throttle configured with `minIntervalSeconds = m` (and a
valid `maxCallsPerSecond ≥ 1`), the gap between any two consecutive
recorded admission timestamps is at least `m`. -/
theorem throttle_min_spacing (k : ℤ) (m t0 : ℚ) (ds : List ℚ)
    (s' : Throttler) (tf : ℚ) (taus : List ℚ)
    (hk : 1 ≤ k) (hd : ∀ d ∈ ds, 0 ≤ d)
    (hr : Throttler.run (mkThrottler k m) t0 ds = some (s', tf, taus)) :
    ∀ i a b, taus[i]? = some a → taus[i + 1]? = some b → a + m ≤ b := by
  obtain ⟨_, _, _, _, _, hsp1, _⟩ := run_good hk hd hr
  exact hsp1

theorem throttle_min_spacing_witness : (0:ℚ) + 1/2 ≤ 1 :=
  throttle_min_spacing 1 (1/2) 0 [0, 0] ⟨1, 1/2, [1]⟩ 1 [0, 1] (by norm_num)
    (by decide)
    (by norm_num [Throttler.run, Throttler.enter, evictLoop, mkThrottler,
          minIntervalWait, afterSleep, List.getLast])
    0 0 1 rfl rfl

/-- C10: after every completed acquisition sequence the history length is
`min n k` (so at most `k`); and once the history holds exactly `k`
entries, each further acquisition evicts exactly the single oldest entry
and appends exactly one new entry, leaving the length exactly `k`. -/
theorem throttle_history_capacity (k : ℤ) (m t0 : ℚ) (ds : List ℚ)
    (s' : Throttler) (tf : ℚ) (taus : List ℚ)
    (hk : 1 ≤ k) (hd : ∀ d ∈ ds, 0 ≤ d)
    (hr : Throttler.run (mkThrottler k m) t0 ds = some (s', tf, taus)) :
    s'.history.length = min taus.length k.toNat ∧
    (∀ (s s2 : Throttler) (t tau : ℚ),
      s.calls_per_second = k → (s.history.length : ℤ) = k →
      s.enter t = some (s2, tau) →
      s2.history = s.history.tail ++ [tau] ∧ (s2.history.length : ℤ) = k) := by
  obtain ⟨_, _, hh, _, _, _, _⟩ := run_good hk hd hr
  constructor
  · rw [hh, List.length_drop]
    omega
  · intro s s2 t tau hsk hslen he
    have hne : s.history ≠ [] := by
      intro hcon
      rw [hcon] at hslen
      simp at hslen
      omega
    have hev := evictLoop_of_full s.calls_per_second s.history hne
      (minIntervalWait s.min_interval (s.history.getLast hne) t) 0
      (by rw [hsk]; exact hslen)
    rw [enter_of_evict s t hne _ _ hev] at he
    injection he with he1
    injection he1 with he2 he3
    have hhist : s2.history = s.history.tail ++ [tau] := by
      rw [← he2, he3]
    refine ⟨hhist, ?_⟩
    rw [hhist, List.length_append, List.length_tail, List.length_singleton]
    have hpos : 1 ≤ s.history.length := by
      cases hl : s.history with
      | nil => exact absurd hl hne
      | cons a l => simp
    omega

theorem throttle_history_capacity_witness :
    ([(0:ℚ), 1] : List ℚ).length = min ([(0:ℚ), 0, 1].length) ((2:ℤ)).toNat :=
  (throttle_history_capacity 2 0 0 [0, 0, 0] ⟨2, 0, [0, 1]⟩ 1 [0, 0, 1] (by norm_num)
    (by decide)
    (by norm_num [Throttler.run, Throttler.enter, evictLoop, mkThrottler,
          minIntervalWait, afterSleep, List.getLast]
        all_goals decide)).1

/-- C3 counterexample: with `maxCallsPerSecond = 5`, `minIntervalSeconds = 0`
and acquisitions at clock times 0 and 2, the second admission decision
leaves the entry `0` in the history even though it is older than the
trailing one-second window `(1, 2]` of the admission at time 2 — eviction
is driven by the count cap, not by entry age, refuting the claim that
every entry older than the rolling window is evicted before each new
admission decision. -/
theorem throttle_stale_entry_counterexample :
    Throttler.run (mkThrottler 5 0) 0 [0, 2] =
      some (⟨5, 0, [0, 2]⟩, 2, [0, 2]) ∧ (0:ℚ) < 2 - 1 := by
  constructor
  · norm_num [Throttler.run, Throttler.enter, evictLoop, mkThrottler,
      minIntervalWait, afterSleep, List.getLast]
  · norm_num

/-- C3 amended: after every completed acquisition sequence the history is
the suffix of the last `min n k` admission timestamps (entries are evicted
oldest-first only when the count cap is reached, and no removed entry is
ever re-inserted), and both the admission sequence and the history are
non-decreasing. -/
theorem throttle_history_sorted_suffix (k : ℤ) (m t0 : ℚ) (ds : List ℚ)
    (s' : Throttler) (tf : ℚ) (taus : List ℚ)
    (hk : 1 ≤ k) (hd : ∀ d ∈ ds, 0 ≤ d)
    (hr : Throttler.run (mkThrottler k m) t0 ds = some (s', tf, taus)) :
    s'.history = taus.drop (taus.length - k.toNat) ∧
    taus.Pairwise (· ≤ ·) ∧ s'.history.Pairwise (· ≤ ·) := by
  obtain ⟨_, _, hh, hsort, _, _, _⟩ := run_good hk hd hr
  refine ⟨hh, hsort, ?_⟩
  rw [hh]
  exact hsort.sublist (List.drop_sublist _ _)

theorem throttle_history_sorted_suffix_witness :
    ([(0:ℚ), 2] : List ℚ) = [(0:ℚ), 2].drop ([(0:ℚ), 2].length - (5:ℤ).toNat) ∧
    ([(0:ℚ), 2] : List ℚ).Pairwise (· ≤ ·) ∧
    ([(0:ℚ), 2] : List ℚ).Pairwise (· ≤ ·) :=
  throttle_history_sorted_suffix 5 0 0 [0, 2] ⟨5, 0, [0, 2]⟩ 2 [0, 2] (by norm_num)
    (by decide)
    (by norm_num [Throttler.run, Throttler.enter, evictLoop, mkThrottler,
          minIntervalWait, afterSleep, List.getLast])

/-- C4 counterexample: with `maxCallsPerSecond = 0` (not rejected at
construction), the second acquisition's eviction loop drains the history
and then calls `popleft` on the empty deque — a runtime `IndexError`,
modelled by `none`.  So a non-positive cap is neither rejected nor treated
as unbounded. -/
theorem throttle_nonpositive_cap_counterexample :
    Throttler.run (mkThrottler 0 0) 0 [0, 0] = none := by
  norm_num [Throttler.run, Throttler.enter, evictLoop, mkThrottler,
    minIntervalWait, afterSleep, List.getLast]

/-- C4 amended: for every configuration with `maxCallsPerSecond ≥ 1`,
acquisition is total — the `history[-1]` access and every `popleft` in the
eviction loop operate on a non-empty history, so no acquisition sequence
ever reaches a runtime failure.  (For `maxCallsPerSecond ≤ 0` the code
does reach a runtime failure; see the counterexample.) -/
theorem throttle_acquire_total (k : ℤ) (m t : ℚ) (ds : List ℚ) (hk : 1 ≤ k) :
    (Throttler.run (mkThrottler k m) t ds).isSome :=
  run_isSome ds (mkThrottler k m) t hk

theorem throttle_acquire_total_witness :
    (Throttler.run (mkThrottler 1 0) 0 [0]).isSome :=
  throttle_acquire_total 1 0 0 [0] (by norm_num)

/-! ## Claims about the retrying transport -/

theorem handleRequest_all429 {eps : Type} (send : ℕ → Except eps ℕ) (A : ℕ) (w : ℚ) :
    ∀ (n a : ℕ) (st : RunState), A - a = n → 1 ≤ st.thr.calls_per_second →
      (∀ i, send i = .ok 429) →
      ∃ st2, handleRequest send A w st a = some (st2, .ok 429) ∧
        st2.calls = st.calls + n + 1 ∧ st2.retrySleeps = st.retrySleeps + n := by
  intro n
  induction n with
  | zero =>
    intro a st hn hk h429
    obtain ⟨⟨thr1, tau⟩, he⟩ := Option.isSome_iff_exists.mp (enter_isSome st.thr st.now hk)
    refine ⟨⟨thr1, tau, st.calls + 1, st.retrySleeps⟩, ?_, by simp, by simp⟩
    rw [handleRequest]
    simp only [he, h429 st.calls]
    split
    · rename_i hcon
      exfalso
      simp at hcon
      omega
    · rfl
  | succ n ih =>
    intro a st hn hk h429
    obtain ⟨⟨thr1, tau⟩, he⟩ := Option.isSome_iff_exists.mp (enter_isSome st.thr st.now hk)
    have hk1 : 1 ≤ thr1.calls_per_second := by
      rw [(enter_config st.thr thr1 st.now tau he).1]
      exact hk
    obtain ⟨st2, hrec, hc, hs⟩ := ih (a + 1) ⟨thr1, tau + w, st.calls + 1, st.retrySleeps + 1⟩
      (by omega) hk1 h429
    simp only [RunState.calls, RunState.retrySleeps] at hc hs
    refine ⟨st2, ?_, by omega, by omega⟩
    rw [handleRequest]
    simp only [he, h429 st.calls]
    split
    · exact hrec
    · rename_i hcon
      exfalso
      simp at hcon
      omega

/-- C2: with `maxAttempts = 3` and an underlying transport that returns
status 429 on every invocation, `handle_request` invokes the underlying
transport exactly 4 times (initial attempt plus 3 retries), sleeps the
retry delay 3 times, and returns the final 429 response normally (as
data, not an error). -/
theorem transport_retry_exhaustion {eps : Type} (send : ℕ → Except eps ℕ) (w : ℚ)
    (st : RunState) (hk : 1 ≤ st.thr.calls_per_second)
    (h429 : ∀ i, send i = .ok 429) :
    ∃ st2, handleRequest send 3 w st 0 = some (st2, .ok 429) ∧
      st2.calls = st.calls + 4 ∧ st2.retrySleeps = st.retrySleeps + 3 := by
  obtain ⟨st2, h1, h2, h3⟩ := handleRequest_all429 send 3 w 3 0 st (by omega) hk h429
  exact ⟨st2, h1, by omega, by omega⟩

theorem transport_retry_exhaustion_witness :
    ∃ st2, handleRequest (fun _ => (Except.ok 429 : Except Unit ℕ)) 3 30
        ⟨mkThrottler 5 (1/20), 0, 0, 0⟩ 0 = some (st2, .ok 429) ∧
      st2.calls = 0 + 4 ∧ st2.retrySleeps = 0 + 3 :=
  transport_retry_exhaustion (fun _ => Except.ok 429) 30 ⟨mkThrottler 5 (1/20), 0, 0, 0⟩
    (by decide) (fun _ => rfl)

/-- C6: with `maxAttempts = 3` and an underlying transport that returns
429 on its first two invocations and 200 on the third, `handle_request`
returns the 200 response, having invoked the underlying transport exactly
3 times and slept the retry delay exactly twice. -/
theorem transport_recover_after_retries {eps : Type} (send : ℕ → Except eps ℕ) (w : ℚ)
    (st : RunState) (hk : 1 ≤ st.thr.calls_per_second)
    (h0 : send st.calls = .ok 429) (h1 : send (st.calls + 1) = .ok 429)
    (h2 : send (st.calls + 2) = .ok 200) :
    ∃ st2, handleRequest send 3 w st 0 = some (st2, .ok 200) ∧
      st2.calls = st.calls + 3 ∧ st2.retrySleeps = st.retrySleeps + 2 := by
  obtain ⟨⟨thrA, tauA⟩, heA⟩ := Option.isSome_iff_exists.mp (enter_isSome st.thr st.now hk)
  have hkA : 1 ≤ thrA.calls_per_second := by
    rw [(enter_config st.thr thrA st.now tauA heA).1]
    exact hk
  obtain ⟨⟨thrB, tauB⟩, heB⟩ := Option.isSome_iff_exists.mp (enter_isSome thrA (tauA + w) hkA)
  have hkB : 1 ≤ thrB.calls_per_second := by
    rw [(enter_config thrA thrB (tauA + w) tauB heB).1]
    exact hkA
  obtain ⟨⟨thrC, tauC⟩, heC⟩ := Option.isSome_iff_exists.mp (enter_isSome thrB (tauB + w) hkB)
  refine ⟨⟨thrC, tauC, st.calls + 3, st.retrySleeps + 2⟩, ?_, by simp, by simp⟩
  rw [handleRequest]
  simp only [heA, h0]
  split
  · rw [handleRequest]
    simp only [RunState.thr, RunState.now, RunState.calls, RunState.retrySleeps, heB, h1]
    split
    · rw [handleRequest]
      simp only [RunState.thr, RunState.now, RunState.calls, RunState.retrySleeps, heC, h2]
      split
      · rename_i hcon
        exfalso
        simp at hcon
      · rfl
    · rename_i hcon
      exfalso
      simp at hcon
  · rename_i hcon
    exfalso
    simp at hcon

theorem transport_recover_after_retries_witness :
    ∃ st2, handleRequest
        (fun i => if i < 2 then (Except.ok 429 : Except Unit ℕ) else Except.ok 200) 3 30
        ⟨mkThrottler 5 (1/20), 0, 0, 0⟩ 0 = some (st2, .ok 200) ∧
      st2.calls = 0 + 3 ∧ st2.retrySleeps = 0 + 2 :=
  transport_recover_after_retries
    (fun i => if i < 2 then (Except.ok 429 : Except Unit ℕ) else Except.ok 200) 30
    ⟨mkThrottler 5 (1/20), 0, 0, 0⟩ (by decide) rfl rfl rfl

/-- C7: if the underlying transport raises a transport-level error on the
current attempt, `handle_request` propagates that exact error unchanged,
performs no retry sleep, and does not invoke the underlying transport a
second time (exactly one invocation happens). -/
theorem transport_error_propagates {eps : Type} (send : ℕ → Except eps ℕ) (A : ℕ)
    (w : ℚ) (st : RunState) (a : ℕ) (e : eps)
    (hk : 1 ≤ st.thr.calls_per_second) (herr : send st.calls = .error e) :
    ∃ st2, handleRequest send A w st a = some (st2, .error e) ∧
      st2.calls = st.calls + 1 ∧ st2.retrySleeps = st.retrySleeps := by
  obtain ⟨⟨thr1, tau⟩, he⟩ := Option.isSome_iff_exists.mp (enter_isSome st.thr st.now hk)
  refine ⟨⟨thr1, tau, st.calls + 1, st.retrySleeps⟩, ?_, by simp, by simp⟩
  rw [handleRequest]
  simp only [he, herr]

theorem transport_error_propagates_witness :
    ∃ st2, handleRequest (fun _ => (Except.error 7 : Except ℕ ℕ)) 3 30
        ⟨mkThrottler 5 (1/20), 0, 0, 0⟩ 0 = some (st2, .error 7) ∧
      st2.calls = 0 + 1 ∧ st2.retrySleeps = 0 :=
  transport_error_propagates (fun _ => Except.error 7) 3 30
    ⟨mkThrottler 5 (1/20), 0, 0, 0⟩ 0 7 (by decide) rfl

/-- C8: every response whose status is not 429 (including 4xx/5xx error
statuses) is returned unchanged on the attempt that produced it, with no
retry sleep and no error raised; only status 429 triggers the retry
path. -/
theorem transport_non429_passthrough {eps : Type} (send : ℕ → Except eps ℕ) (A : ℕ)
    (w : ℚ) (st : RunState) (a : ℕ) (c : ℕ)
    (hk : 1 ≤ st.thr.calls_per_second) (hok : send st.calls = .ok c) (hne : c ≠ 429) :
    ∃ st2, handleRequest send A w st a = some (st2, .ok c) ∧
      st2.calls = st.calls + 1 ∧ st2.retrySleeps = st.retrySleeps := by
  obtain ⟨⟨thr1, tau⟩, he⟩ := Option.isSome_iff_exists.mp (enter_isSome st.thr st.now hk)
  refine ⟨⟨thr1, tau, st.calls + 1, st.retrySleeps⟩, ?_, by simp, by simp⟩
  rw [handleRequest]
  simp only [he, hok]
  split
  · rename_i hcon
    exact absurd hcon.1 hne
  · rfl

theorem transport_non429_passthrough_witness :
    ∃ st2, handleRequest (fun _ => (Except.ok 503 : Except Unit ℕ)) 3 30
        ⟨mkThrottler 5 (1/20), 0, 0, 0⟩ 0 = some (st2, .ok 503) ∧
      st2.calls = 0 + 1 ∧ st2.retrySleeps = 0 :=
  transport_non429_passthrough (fun _ => Except.ok 503) 3 30
    ⟨mkThrottler 5 (1/20), 0, 0, 0⟩ 0 503 (by decide) rfl (by decide)

theorem enter_getLast (s s' : Throttler) (t tau : ℚ)
    (he : s.enter t = some (s', tau)) : s'.history.getLast? = some tau := by
  by_cases hne : s.history = []
  · rw [enter_of_nil s t hne] at he
    injection he with he1
    injection he1 with he2 he3
    subst he3
    rw [← he2]
    simp
  · cases hev : evictLoop s.calls_per_second s.history
        (minIntervalWait s.min_interval (s.history.getLast hne) t) 0 with
    | none =>
      unfold Throttler.enter at he
      rw [dif_neg hne, hev] at he
      exact absurd he (by simp)
    | some p =>
      obtain ⟨hist1, sleepT⟩ := p
      rw [enter_of_evict s t hne hist1 sleepT hev] at he
      injection he with he1
      injection he1 with he2 he3
      subst he3
      rw [← he2]
      exact List.getLast?_concat _

/-- C9: when the underlying transport raises, the throttler history is
nevertheless left containing the admission timestamp recorded for that
attempt — the failed request still counts against the rate limit and the
history is not rolled back on error. -/
theorem transport_error_keeps_history {eps : Type} (send : ℕ → Except eps ℕ) (A : ℕ)
    (w : ℚ) (st : RunState) (a : ℕ) (e : eps)
    (hk : 1 ≤ st.thr.calls_per_second) (herr : send st.calls = .error e) :
    ∃ st2 tau, handleRequest send A w st a = some (st2, .error e) ∧
      st.thr.enter st.now = some (st2.thr, tau) ∧
      st2.thr.history ≠ [] ∧ st2.thr.history.getLast? = some tau := by
  obtain ⟨⟨thr1, tau⟩, he⟩ := Option.isSome_iff_exists.mp (enter_isSome st.thr st.now hk)
  have hgl : thr1.history.getLast? = some tau := enter_getLast st.thr thr1 st.now tau he
  refine ⟨⟨thr1, tau, st.calls + 1, st.retrySleeps⟩, tau, ?_, he, ?_, hgl⟩
  · rw [handleRequest]
    simp only [he, herr]
  · intro hcon
    rw [hcon] at hgl
    exact absurd hgl (by simp)

theorem transport_error_keeps_history_witness :
    ∃ st2 tau, handleRequest (fun _ => (Except.error 7 : Except ℕ ℕ)) 3 30
        ⟨mkThrottler 5 (1/20), 1, 0, 0⟩ 0 = some (st2, .error 7) ∧
      (mkThrottler 5 (1/20)).enter 1 = some (st2.thr, tau) ∧
      st2.thr.history ≠ [] ∧ st2.thr.history.getLast? = some tau :=
  transport_error_keeps_history (fun _ => Except.error 7) 3 30
    ⟨mkThrottler 5 (1/20), 1, 0, 0⟩ 0 7 (by decide) rfl
